import Mathlib

set_option linter.unusedSectionVars false

/-!
# Verification of the chainer CRF layer and updater callbacks

Shallow embedding of `chainer/functions/loss/crf1d.py` and
`chainer/trainer/updater.py`.

Tensors of shape (B, L) are embedded as functions `Fin B → Fin L → α`;
sequences of tensors as Lean lists.  The array primitives imported by
`crf1d.py` (`broadcast`, `reshape`, `logsumexp`, `minmax.argmax`,
`minmax.max`, `embed_id`, `select_item`) live outside the excerpt, so they
are modelled from the spec's description of them; `broadcast`/`reshape`
reduce to index arithmetic on the function representation.
-/

namespace Crf1d

/-- Modelled from the spec: `chainer.functions.math.logsumexp` reduced over
an axis of size `L` computes `log (Σ_i exp (v i))` along that axis. -/
noncomputable def logsumexp {L : ℕ} (v : Fin L → ℝ) : ℝ :=
  Real.log (∑ i, Real.exp (v i))

/-- One iteration of the forward loop of `crf1d`:
`alpha = logsumexp(b_alpha + b_cost, axis=1) + x` where
`b_alpha[b][i][j] = alpha[b][i]` (reshape to (B,L,1) then broadcast) and
`b_cost[b][i][j] = cost[i][j]` (broadcast of the (L,L) matrix). -/
noncomputable def crf1dStep {L B : ℕ} (cost : Fin L → Fin L → ℝ)
    (alpha x : Fin B → Fin L → ℝ) : Fin B → Fin L → ℝ :=
  fun b j => logsumexp (fun i => alpha b i + cost i j) + x b j

/-- The forward recurrence of `crf1d`: `alpha = xs[0]`, then one
`crf1dStep` per remaining emission tensor. -/
noncomputable def crf1dAlpha {L B : ℕ} (cost : Fin L → Fin L → ℝ)
    (x0 : Fin B → Fin L → ℝ) (rest : List (Fin B → Fin L → ℝ)) :
    Fin B → Fin L → ℝ :=
  rest.foldl (crf1dStep cost) x0

/-- Row-major flattening `reshape(cost, (L*L, 1))` of the cost matrix, as
used by the gold-score computation of `crf1d`. -/
def costFlat {L : ℕ} (cost : Fin L → Fin L → ℝ) (k : Fin (L * L)) : ℝ :=
  cost ⟨k.val / L, Nat.div_lt_of_lt_mul k.isLt⟩
    ⟨k.val % L, by
      have hk := k.isLt
      rcases Nat.eq_zero_or_pos L with h | h
      · subst h; simp at hk
      · exact Nat.mod_lt _ h⟩

/-- The flat index `y1 * n_label + y2` computed by `crf1d` for the
transition lookup `embed_id(y1 * n_label + y2, cost)`. -/
def transIdx {L : ℕ} (y1 y2 : Fin L) : Fin (L * L) :=
  ⟨y1.val * L + y2.val, by
    have h1 := y1.isLt
    have h2 := y2.isLt
    calc y1.val * L + y2.val < y1.val * L + L := by omega
      _ = (y1.val + 1) * L := by ring
      _ ≤ L * L := Nat.mul_le_mul_right L (by omega)⟩

/-- Transition part of the gold score of `crf1d`: for each consecutive pair
`(y1, y2) = zip(ys[:-1], ys[1:])`, look up the flattened cost at index
`y1 * n_label + y2` and accumulate. -/
def crf1dTransScore {L B : ℕ} (cost : Fin L → Fin L → ℝ)
    (ys : List (Fin B → Fin L)) (b : Fin B) : ℝ :=
  ((ys.zip ys.tail).map fun p => costFlat cost (transIdx (p.1 b) (p.2 b))).sum

/-- Emission part of the gold score of `crf1d`: for each `(x, y)` in
`zip(xs, ys)`, `select_item(x, y)[b] = x[b][y[b]]`, accumulated. -/
def crf1dEmitScore {L B : ℕ} (xs : List (Fin B → Fin L → ℝ))
    (ys : List (Fin B → Fin L)) (b : Fin B) : ℝ :=
  ((xs.zip ys).map fun p => p.1 b (p.2 b)).sum

/-- `crf1d(cost, xs, ys)`: negative log-likelihood `logz - score` per batch
item.  An empty `xs` is invalid input (the python code would fail on
`xs[0]`), embedded as `none`. -/
noncomputable def crf1d {L B : ℕ} (cost : Fin L → Fin L → ℝ)
    (xs : List (Fin B → Fin L → ℝ)) (ys : List (Fin B → Fin L)) :
    Option (Fin B → ℝ) :=
  match xs with
  | [] => none
  | x0 :: rest =>
    some fun b =>
      logsumexp (crf1dAlpha cost x0 rest b) -
        (crf1dTransScore cost ys b + crf1dEmitScore xs ys b)

/-- Written from the spec's words, to be compared with `crf1d`:
`score[b]` is the sum of `cost[ys[t][b]][ys[t+1][b]]` over consecutive
positions plus the sum of `xs[t][b][ys[t][b]]` over all positions. -/
def specScore {L B : ℕ} (cost : Fin L → Fin L → ℝ)
    (xs : List (Fin B → Fin L → ℝ)) (ys : List (Fin B → Fin L))
    (b : Fin B) : ℝ :=
  (List.zipWith (fun y1 y2 => cost (y1 b) (y2 b)) ys ys.tail).sum +
    (List.zipWith (fun x y => x b (y b)) xs ys).sum

/-- Written from the spec's words, to be compared with `crf1d`:
`logZ[b] - score[b]` where `logZ[b]` is the log-sum-exp over labels of the
forward recurrence started from `alpha = xs[0]`. -/
noncomputable def specNLL {L B : ℕ} (cost : Fin L → Fin L → ℝ)
    (x0 : Fin B → Fin L → ℝ) (rest : List (Fin B → Fin L → ℝ))
    (ys : List (Fin B → Fin L)) (b : Fin B) : ℝ :=
  logsumexp (crf1dAlpha cost x0 rest b) - specScore cost (x0 :: rest) ys b

end Crf1d

namespace Viterbi

variable {α : Type} [LinearOrder α] [Add α]

/-- Modelled from the spec: `chainer.functions.math.minmax.argmax` over an
axis of size `L + 1` scans the axis and returns the index of the maximum,
keeping the first (lowest) index on ties. -/
def argmaxVec {L : ℕ} (v : Fin (L + 1) → α) : Fin (L + 1) :=
  (List.finRange (L + 1)).foldl (fun best i => if v best < v i then i else best) 0

/-- Modelled from the spec: `chainer.functions.math.minmax.max` over an
axis of size `L + 1` returns the maximum value along that axis. -/
def maxVec {L : ℕ} (v : Fin (L + 1) → α) : α :=
  (List.finRange (L + 1)).foldl (fun m i => max m (v i)) (v 0)

/-- Loop state of `crf1d_viterbi`'s forward pass.  The python local
variable `cost` is reassigned to the broadcast sum `b_alpha + b_cost`
(shape (B, L, L)) inside the loop, so the state carries the current value
of that variable (`cst`), initially the transition matrix broadcast over
the batch axis. -/
structure VState (α : Type) (L B : ℕ) where
  alpha : Fin B → Fin (L + 1) → α
  cst : Fin B → Fin (L + 1) → Fin (L + 1) → α
  maxInds : List (Fin B → Fin (L + 1) → Fin (L + 1))

/-- One iteration of the forward loop of `crf1d_viterbi`:
`cost = b_alpha + b_cost`; `max_inds.append(argmax(cost, axis=1))`;
`alpha = max(cost, axis=1) + x`.  Note that the reassigned `cost` (`cst`)
is what the next iteration broadcasts against. -/
def vstep {L B : ℕ} (s : VState α L B) (x : Fin B → Fin (L + 1) → α) :
    VState α L B :=
  { alpha := fun b j => maxVec (fun i => s.alpha b i + s.cst b i j) + x b j
    cst := fun b i j => s.alpha b i + s.cst b i j
    maxInds := s.maxInds ++ [fun b j => argmaxVec (fun i => s.alpha b i + s.cst b i j)] }

/-- Initial loop state: `alpha = xs[0]`, the python variable `cost` still
holds the (L, L) transition matrix (broadcast is by index). -/
def vinit {L B : ℕ} (cost : Fin (L + 1) → Fin (L + 1) → α)
    (x0 : Fin B → Fin (L + 1) → α) : VState α L B :=
  ⟨x0, fun _ i j => cost i j, []⟩

/-- The whole forward pass of `crf1d_viterbi` over `xs[1:]`. -/
def vrun {L B : ℕ} (cost : Fin (L + 1) → Fin (L + 1) → α)
    (x0 : Fin B → Fin (L + 1) → α) (rest : List (Fin B → Fin (L + 1) → α)) :
    VState α L B :=
  rest.foldl vstep (vinit cost x0)

/-- The backward trace of `crf1d_viterbi`: `path = [inds]`, then for each
backpointer tensor `m` (taken in reversed order by the caller),
`inds = m.data[range(len(inds)), inds]` and append. -/
def backtraceAux {L B : ℕ} :
    List (Fin B → Fin (L + 1) → Fin (L + 1)) → (Fin B → Fin (L + 1)) →
      List (Fin B → Fin (L + 1))
  | [], inds => [inds]
  | m :: ms, inds => inds :: backtraceAux ms (fun b => m b (inds b))

/-- `crf1d_viterbi(cost, xs)`: forward max-pass then backward trace;
returns `(alpha, path)`.  An empty `xs` is invalid input (the python code
would fail on `xs[0]`), embedded as `none`. -/
def crf1d_viterbi {L B : ℕ} (cost : Fin (L + 1) → Fin (L + 1) → α)
    (xs : List (Fin B → Fin (L + 1) → α)) :
    Option ((Fin B → Fin (L + 1) → α) × List (Fin B → Fin (L + 1))) :=
  match xs with
  | [] => none
  | x0 :: rest =>
    let s := vrun cost x0 rest
    let inds : Fin B → Fin (L + 1) := fun b => argmaxVec (s.alpha b)
    some (s.alpha, (backtraceAux s.maxInds.reverse inds).reverse)

/-- Direct-summation score of a label path against emissions and the
original transition matrix (used for the brute-force Viterbi check):
transition costs over consecutive pairs plus emission scores. -/
def pathScore {β : Type} [AddCommMonoid β] {L B : ℕ}
    (cost : Fin (L + 1) → Fin (L + 1) → β)
    (xs : List (Fin B → Fin (L + 1) → β)) (ys : List (Fin B → Fin (L + 1)))
    (b : Fin B) : β :=
  (List.zipWith (fun y1 y2 => cost (y1 b) (y2 b)) ys ys.tail).sum +
    (List.zipWith (fun x y => x b (y b)) xs ys).sum

end Viterbi


namespace Viterbi

variable {α : Type} [LinearOrder α] [Add α]

/-- Invariant of the left-to-right argmax scan: folding over a strictly
increasing list of indices whose union with the already-dominated indices
covers everything yields the maximum, and every index strictly below the
result has a strictly smaller value (first occurrence of the maximum). -/
lemma argmax_foldl_spec {n : ℕ} (v : Fin n → α) (l : List (Fin n)) :
    ∀ best : Fin n, l.Pairwise (· < ·) → (∀ j, j < best → v j < v best) →
      (∀ j, j ∈ l ∨ v j ≤ v best) →
      (∀ j, v j ≤ v (l.foldl (fun b i => if v b < v i then i else b) best)) ∧
        ∀ j, j < l.foldl (fun b i => if v b < v i then i else b) best →
          v j < v (l.foldl (fun b i => if v b < v i then i else b) best) := by
  induction l with
  | nil =>
    intro best _ hstrict hcov
    refine ⟨fun j => ?_, fun j hj => hstrict j hj⟩
    rcases hcov j with h | h
    · exact absurd h (List.not_mem_nil j)
    · exact h
  | cons i t ih =>
    intro best hpw hstrict hcov
    have hpt : t.Pairwise (· < ·) := hpw.of_cons
    have hit : ∀ k ∈ t, i < k := fun k hk => List.rel_of_pairwise_cons hpw hk
    simp only [List.foldl_cons]
    by_cases hbi : v best < v i
    · rw [if_pos hbi]
      refine ih i hpt ?_ ?_
      · intro j hj
        rcases hcov j with hm | hle
        · rcases List.mem_cons.mp hm with rfl | hmt
          · exact absurd hj (lt_irrefl _)
          · exact absurd hj (not_lt_of_lt (hit j hmt))
        · calc v j ≤ v best := hle
            _ < v i := hbi
      · intro j
        rcases hcov j with hm | hle
        · rcases List.mem_cons.mp hm with rfl | hmt
          · exact Or.inr le_rfl
          · exact Or.inl hmt
        · exact Or.inr (le_trans hle (le_of_lt hbi))
    · rw [if_neg hbi]
      refine ih best hpt hstrict ?_
      intro j
      rcases hcov j with hm | hle
      · rcases List.mem_cons.mp hm with rfl | hmt
        · exact Or.inr (le_of_not_lt hbi)
        · exact Or.inl hmt
      · exact Or.inr hle

/-- The scanned argmax attains the maximum of the vector. -/
lemma argmaxVec_le {L : ℕ} (v : Fin (L + 1) → α) (j : Fin (L + 1)) :
    v j ≤ v (argmaxVec v) :=
  (argmax_foldl_spec v (List.finRange (L + 1)) 0 (List.pairwise_lt_finRange _)
    (fun j hj => absurd (Fin.lt_def.mp hj) (by simp))
    (fun j => Or.inl (List.mem_finRange j))).1 j

/-- Every index strictly below the scanned argmax has a strictly smaller
value: on ties the lowest index wins. -/
lemma argmaxVec_lowest {L : ℕ} (v : Fin (L + 1) → α) (j : Fin (L + 1))
    (hj : j < argmaxVec v) : v j < v (argmaxVec v) :=
  (argmax_foldl_spec v (List.finRange (L + 1)) 0 (List.pairwise_lt_finRange _)
    (fun j hj => absurd (Fin.lt_def.mp hj) (by simp))
    (fun j => Or.inl (List.mem_finRange j))).2 j hj

/-- Each loop iteration appends exactly one backpointer tensor. -/
lemma foldl_vstep_maxInds_length (l : List (Fin B → Fin (L + 1) → α)) :
    ∀ s : VState α L B,
      (l.foldl vstep s).maxInds.length = s.maxInds.length + l.length := by
  induction l with
  | nil => intro s; simp
  | cons x t ih =>
    intro s
    calc ((x :: t).foldl vstep s).maxInds.length
        = (vstep s x).maxInds.length + t.length := by
          simpa using ih (vstep s x)
      _ = s.maxInds.length + (t.length + 1) := by
          simp [vstep]; omega
      _ = s.maxInds.length + (x :: t).length := by simp

/-- The backward trace produces one label vector per backpointer tensor,
plus the initial (final-position) one. -/
lemma backtraceAux_length {L B : ℕ} (ms : List (Fin B → Fin (L + 1) → Fin (L + 1))) :
    ∀ inds : Fin B → Fin (L + 1),
      (backtraceAux ms inds).length = ms.length + 1 := by
  induction ms with
  | nil => intro inds; rfl
  | cons m t ih => intro inds; simp [backtraceAux, ih]

end Viterbi

namespace Viterbi

variable {α : Type} [LinearOrder α] [Add α]

/-- All-zero 2×2 transition matrix for the failing input (L = 2, B = 1). -/
def bugCost : Fin 2 → Fin 2 → ℤ := fun _ _ => 0

/-- Failing-input emissions at position 0: `[10, 0]`. -/
def bugX0 : Fin 1 → Fin 2 → ℤ := fun _ i => if i.val = 0 then 10 else 0

/-- Failing-input emissions at position 1: `[0, 1]`. -/
def bugX1 : Fin 1 → Fin 2 → ℤ := fun _ i => if i.val = 0 then 0 else 1

/-- Failing-input emissions at position 2: `[0, 0]`. -/
def bugX2 : Fin 1 → Fin 2 → ℤ := fun _ _ => 0

/-- The label sequence `[0, 1, 0]`, which outscores the decoded path on the
failing input. -/
def bugBetter : List (Fin 1 → Fin 2) := [fun _ => 0, fun _ => 1, fun _ => 0]

/-- C2: refuted on the code.  The loop body of `crf1d_viterbi` reassigns
the python variable `cost` to the broadcast sum `b_alpha + b_cost`, so
from the second iteration on the additive tensor is built from the
previous iteration's tensor, not the original transition matrix.  At
`cost = 0`, `xs = [[10,0],[0,1],[0,0]]` (L = 2, B = 1, T = 3), the
second-step tensor entry `[0][0][0]` is `20`, whereas
`alpha_1[0][0] + cost[0][0] = 10`. -/
theorem viterbi_step_uses_clobbered_cost :
    (vstep (vstep (vinit bugCost bugX0) bugX1) bugX2).cst 0 0 0 = 20 ∧
      (vstep (vinit bugCost bugX0) bugX1).alpha 0 0 + bugCost 0 0 = 10 ∧
      (vstep (vstep (vinit bugCost bugX0) bugX1) bugX2).cst 0 0 0 ≠
        (vstep (vinit bugCost bugX0) bugX1).alpha 0 0 + bugCost 0 0 := by
  decide

/-- C3: refuted on the code.  On the failing input `cost = 0`,
`xs = [[10,0],[0,1],[0,0]]`, the path decoded by `crf1d_viterbi` scores
`10`, but the label sequence `[0, 1, 0]` of the same length scores `11`,
so the decoded path does not maximize `score(x, y)`. -/
theorem viterbi_path_suboptimal :
    (crf1d_viterbi bugCost [bugX0, bugX1, bugX2]).map
        (fun r => pathScore bugCost [bugX0, bugX1, bugX2] r.2 0) = some 10 ∧
      bugBetter.length = 3 ∧
      pathScore bugCost [bugX0, bugX1, bugX2] bugBetter 0 = 11 := by
  decide

/-- C4: for a single-position input `xs = [x0]`, the loop and the
backpointer trace do not execute: `crf1d_viterbi` returns `alpha = xs[0]`
and `path = [argmax(xs[0], axis=label)]`. -/
theorem viterbi_single_step {L B : ℕ} (cost : Fin (L + 1) → Fin (L + 1) → α)
    (x0 : Fin B → Fin (L + 1) → α) :
    crf1d_viterbi cost [x0] = some (x0, [fun b => argmaxVec (x0 b)]) :=
  rfl

/-- The backward trace starts with the final-position indices. -/
lemma backtraceAux_head? {L B : ℕ}
    (ms : List (Fin B → Fin (L + 1) → Fin (L + 1))) (inds : Fin B → Fin (L + 1)) :
    (backtraceAux ms inds).head? = some inds := by
  cases ms <;> rfl

/-- C5: ties are broken deterministically toward the lowest index.  The
backpointer tensor appended by each forward-loop iteration of
`crf1d_viterbi` holds, at each batch item and next-label, an index
attaining the maximum of that step's additive tensor over the
previous-label axis such that all strictly lower indices have strictly
smaller values; the final label vector (the last entry of the returned
path) likewise holds the lowest index attaining the maximum of the
returned `alpha` over the label axis. -/
theorem viterbi_tiebreak_lowest {L B : ℕ} (s : VState α L B)
    (x : Fin B → Fin (L + 1) → α) (cost : Fin (L + 1) → Fin (L + 1) → α)
    (x0 : Fin B → Fin (L + 1) → α) (rest : List (Fin B → Fin (L + 1) → α))
    (a : Fin B → Fin (L + 1) → α) (p : List (Fin B → Fin (L + 1)))
    (hrun : crf1d_viterbi cost (x0 :: rest) = some (a, p)) :
    (∃ bp, (vstep s x).maxInds.getLast? = some bp ∧
        ∀ b j, (∀ i, s.alpha b i + s.cst b i j ≤
              s.alpha b (bp b j) + s.cst b (bp b j) j) ∧
          ∀ i, i < bp b j →
            s.alpha b i + s.cst b i j < s.alpha b (bp b j) + s.cst b (bp b j) j) ∧
      p.getLast? = some (fun b => argmaxVec (a b)) ∧
        ∀ b, (∀ i, a b i ≤ a b (argmaxVec (a b))) ∧
          ∀ i, i < argmaxVec (a b) → a b i < a b (argmaxVec (a b)) := by
  simp only [crf1d_viterbi, Option.some.injEq, Prod.mk.injEq] at hrun
  obtain ⟨ha, hp⟩ := hrun
  subst ha
  subst hp
  refine ⟨⟨fun b j => argmaxVec (fun i => s.alpha b i + s.cst b i j), ?_, ?_⟩, ?_, ?_⟩
  · simp [vstep]
  · intro b j
    exact ⟨fun i => argmaxVec_le (fun i => s.alpha b i + s.cst b i j) i,
      fun i hi => argmaxVec_lowest (fun i => s.alpha b i + s.cst b i j) i hi⟩
  · rw [List.getLast?_reverse, backtraceAux_head?]
  · intro b
    exact ⟨fun i => argmaxVec_le _ i, fun i hi => argmaxVec_lowest _ i hi⟩

/-- One-label, one-item instances used to exercise the theorems with a
hypothesis on concrete input. -/
def oneCost : Fin 1 → Fin 1 → ℤ := fun _ _ => 0

/-- One-label, one-item emission tensor. -/
def oneX : Fin 1 → Fin 1 → ℤ := fun _ _ => 0

/-- One-label, one-item label vector. -/
def oneInd : Fin 1 → Fin 1 := fun _ => 0

/-- Witness for `viterbi_tiebreak_lowest` at a concrete input. -/
theorem viterbi_tiebreak_lowest_witness :
    (crf1d_viterbi oneCost [oneX] = some (oneX, [fun b => argmaxVec (oneX b)])) ∧
      ((∃ bp, (vstep (vinit oneCost oneX) oneX).maxInds.getLast? = some bp ∧
          ∀ b j, (∀ i, (vinit oneCost oneX).alpha b i + (vinit oneCost oneX).cst b i j ≤
                (vinit oneCost oneX).alpha b (bp b j) +
                  (vinit oneCost oneX).cst b (bp b j) j) ∧
            ∀ i, i < bp b j →
              (vinit oneCost oneX).alpha b i + (vinit oneCost oneX).cst b i j <
                (vinit oneCost oneX).alpha b (bp b j) +
                  (vinit oneCost oneX).cst b (bp b j) j) ∧
        ([fun b => argmaxVec (oneX b)] : List (Fin 1 → Fin 1)).getLast? =
            some (fun b => argmaxVec (oneX b)) ∧
          ∀ b, (∀ i, oneX b i ≤ oneX b (argmaxVec (oneX b))) ∧
            ∀ i, i < argmaxVec (oneX b) → oneX b i < oneX b (argmaxVec (oneX b))) :=
  ⟨by decide,
    viterbi_tiebreak_lowest (vinit oneCost oneX) oneX oneCost oneX []
      oneX [fun b => argmaxVec (oneX b)] (by decide)⟩

/-- C10: for a non-empty input, the decoded path has exactly one label
vector per position, and every entry of every vector is a label index in
`[0, L)` (the label count is `L + 1` here). -/
theorem viterbi_path_shape {L B : ℕ} (cost : Fin (L + 1) → Fin (L + 1) → α)
    (x0 : Fin B → Fin (L + 1) → α) (rest : List (Fin B → Fin (L + 1) → α))
    (a : Fin B → Fin (L + 1) → α) (p : List (Fin B → Fin (L + 1)))
    (h : crf1d_viterbi cost (x0 :: rest) = some (a, p)) :
    p.length = (x0 :: rest).length ∧ ∀ v ∈ p, ∀ b : Fin B, (v b).val < L + 1 := by
  simp only [crf1d_viterbi, Option.some.injEq, Prod.mk.injEq] at h
  obtain ⟨-, hp⟩ := h
  subst hp
  constructor
  · rw [List.length_reverse, backtraceAux_length, List.length_reverse,
      vrun, foldl_vstep_maxInds_length]
    simp [vinit]
  · intro v _ b
    exact (v b).isLt

/-- Witness for `viterbi_path_shape` at a concrete input. -/
theorem viterbi_path_shape_witness :
    (crf1d_viterbi oneCost [oneX, oneX] = some (oneX, [oneInd, oneInd])) ∧
      ([oneInd, oneInd] : List (Fin 1 → Fin 1)).length =
          ([oneX, oneX] : List (Fin 1 → Fin 1 → ℤ)).length ∧
        ∀ v ∈ ([oneInd, oneInd] : List (Fin 1 → Fin 1)), ∀ b : Fin 1,
          (v b).val < 0 + 1 :=
  ⟨by decide, viterbi_path_shape oneCost oneX [oneX] oneX [oneInd, oneInd] (by decide)⟩

end Viterbi

namespace Crf1d

/-- Mapping an evaluation over a zipped pair of lists is the corresponding
`zipWith`. -/
lemma map_zip_eq_zipWith {γ δ ε : Type} (f : γ → δ → ε) :
    ∀ (l1 : List γ) (l2 : List δ),
      ((l1.zip l2).map fun p => f p.1 p.2) = List.zipWith f l1 l2 := by
  intro l1
  induction l1 with
  | nil => intro l2; rfl
  | cons a t ih =>
    intro l2
    cases l2 with
    | nil => rfl
    | cons c t2 => simp [ih]

/-- The flattened-index transition lookup of `crf1d` recovers the direct
matrix entry: `cost.reshape(L*L, 1)[y1 * L + y2] = cost[y1][y2]`. -/
lemma costFlat_transIdx {L : ℕ} (cost : Fin L → Fin L → ℝ) (y1 y2 : Fin L) :
    costFlat cost (transIdx y1 y2) = cost y1 y2 := by
  have hL : 0 < L := y1.pos
  have heq : y1.val * L + y2.val = L * y1.val + y2.val := by ring
  have hdiv : (y1.val * L + y2.val) / L = y1.val := by
    rw [heq, Nat.mul_add_div hL, Nat.div_eq_of_lt y2.isLt, Nat.add_zero]
  have hmod : (y1.val * L + y2.val) % L = y2.val := by
    rw [heq, Nat.mul_add_mod, Nat.mod_eq_of_lt y2.isLt]
  exact congr_arg₂ cost (Fin.ext hdiv) (Fin.ext hmod)

/-- C1: for a non-empty emission sequence, `crf1d` returns exactly
`logZ - score` per batch item, where `logZ` is the log-sum-exp of the
forward recurrence `alpha_t[b][j] = logsumexp_i(alpha_{t-1}[b][i] +
cost[i][j]) + xs[t][b][j]` started from `alpha = xs[0]`, and `score[b]`
is the sum of `cost[ys[t][b]][ys[t+1][b]]` over consecutive positions
plus the sum of `xs[t][b][ys[t][b]]` over all positions. -/
theorem crf1d_matches_spec {L B : ℕ} (cost : Fin L → Fin L → ℝ)
    (x0 : Fin B → Fin L → ℝ) (rest : List (Fin B → Fin L → ℝ))
    (ys : List (Fin B → Fin L)) :
    crf1d cost (x0 :: rest) ys = some (specNLL cost x0 rest ys) := by
  simp only [crf1d, specNLL, Option.some.injEq]
  funext b
  have htrans : crf1dTransScore cost ys b =
      (List.zipWith (fun y1 y2 => cost (y1 b) (y2 b)) ys ys.tail).sum := by
    have h1 : ((ys.zip ys.tail).map
          fun p => costFlat cost (transIdx (p.1 b) (p.2 b))) =
        (ys.zip ys.tail).map fun p => cost (p.1 b) (p.2 b) :=
      List.map_congr_left fun p _ => costFlat_transIdx cost (p.1 b) (p.2 b)
    calc crf1dTransScore cost ys b
        = ((ys.zip ys.tail).map fun p => cost (p.1 b) (p.2 b)).sum :=
          congrArg List.sum h1
      _ = (List.zipWith (fun y1 y2 => cost (y1 b) (y2 b)) ys ys.tail).sum :=
          congrArg List.sum
            (map_zip_eq_zipWith (fun y1 y2 => cost (y1 b) (y2 b)) ys ys.tail)
  have hemit : crf1dEmitScore (x0 :: rest) ys b =
      (List.zipWith (fun x y => x b (y b)) (x0 :: rest) ys).sum :=
    congrArg List.sum
      (map_zip_eq_zipWith (fun x y => x b (y b)) (x0 :: rest) ys)
  rw [htrans, hemit]
  rfl

end Crf1d

namespace Batch

open Crf1d Viterbi

/-- View of a batched value through a batch-index map `g`: item `c` of the
view is item `g c` of the original.  Instantiated with the two injections
`Fin 1 → Fin 2`, it extracts one item of a two-item batch. -/
def resB {γ : Type} {B C : ℕ} (g : Fin C → Fin B) (x : Fin B → γ) :
    Fin C → γ :=
  fun c => x (g c)

/-- Stacking two single-item batched values into one two-item batch. -/
def stack2 {γ : Type} (f g : Fin 1 → γ) : Fin 2 → γ :=
  fun b => if b.val = 0 then f 0 else g 0

/-- The scorer's forward recurrence acts batch-itemwise. -/
lemma crf1dAlpha_resB {L B C : ℕ} (g : Fin C → Fin B)
    (cost : Fin L → Fin L → ℝ) (rest : List (Fin B → Fin L → ℝ)) :
    ∀ x0, crf1dAlpha cost (resB g x0) (rest.map (resB g)) =
      resB g (crf1dAlpha cost x0 rest) := by
  induction rest with
  | nil => intro x0; rfl
  | cons x t ih =>
    intro x0
    have hstep : crf1dStep cost (resB g x0) (resB g x) =
        resB g (crf1dStep cost x0 x) := rfl
    simp only [List.map_cons, crf1dAlpha, List.foldl_cons] at ih ⊢
    rw [hstep]
    exact ih (crf1dStep cost x0 x)

/-- The transition part of the gold score acts batch-itemwise. -/
lemma crf1dTransScore_resB {L B C : ℕ} (g : Fin C → Fin B)
    (cost : Fin L → Fin L → ℝ) (ys : List (Fin B → Fin L)) (c : Fin C) :
    crf1dTransScore cost (ys.map (resB g)) c = crf1dTransScore cost ys (g c) := by
  unfold crf1dTransScore
  rw [← List.map_tail, List.zip_map, List.map_map]
  rfl

/-- The emission part of the gold score acts batch-itemwise. -/
lemma crf1dEmitScore_resB {L B C : ℕ} (g : Fin C → Fin B)
    (xs : List (Fin B → Fin L → ℝ)) (ys : List (Fin B → Fin L)) (c : Fin C) :
    crf1dEmitScore (xs.map (resB g)) (ys.map (resB g)) c =
      crf1dEmitScore xs ys (g c) := by
  unfold crf1dEmitScore
  rw [List.zip_map, List.map_map]
  rfl

/-- `crf1d` acts batch-itemwise: the loss of the restricted batch is the
restriction of the loss. -/
lemma crf1d_resB {L B C : ℕ} (g : Fin C → Fin B) (cost : Fin L → Fin L → ℝ)
    (x0 : Fin B → Fin L → ℝ) (rest : List (Fin B → Fin L → ℝ))
    (ys : List (Fin B → Fin L)) :
    crf1d cost (resB g x0 :: rest.map (resB g)) (ys.map (resB g)) =
      (crf1d cost (x0 :: rest) ys).map fun f => resB g f := by
  simp only [crf1d, Option.map_some]
  congr 1
  funext c
  rw [crf1dAlpha_resB, crf1dTransScore_resB,
    show (resB g x0 :: rest.map (resB g)) = (x0 :: rest).map (resB g) from rfl,
    crf1dEmitScore_resB]
  rfl

end Batch

namespace Batch

open Crf1d Viterbi

variable {α : Type} [LinearOrder α] [Add α]

/-- View of a decoder loop state through a batch-index map. -/
def resState {L B C : ℕ} (g : Fin C → Fin B) (s : VState α L B) :
    VState α L C :=
  ⟨resB g s.alpha, resB g s.cst, s.maxInds.map (resB g)⟩

/-- One decoder loop iteration acts batch-itemwise (also on the clobbered
`cost` tensor, which is batched). -/
lemma vstep_resState {L B C : ℕ} (g : Fin C → Fin B) (s : VState α L B)
    (x : Fin B → Fin (L + 1) → α) :
    vstep (resState g s) (resB g x) = resState g (vstep s x) := by
  simp only [vstep, resState, resB, List.map_append]
  rfl

/-- The decoder's forward pass acts batch-itemwise. -/
lemma foldl_vstep_resState {L B C : ℕ} (g : Fin C → Fin B)
    (l : List (Fin B → Fin (L + 1) → α)) :
    ∀ s : VState α L B,
      (l.map (resB g)).foldl vstep (resState g s) =
        resState g (l.foldl vstep s) := by
  induction l with
  | nil => intro s; rfl
  | cons x t ih =>
    intro s
    simp only [List.map_cons, List.foldl_cons, vstep_resState]
    exact ih (vstep s x)

/-- The backward trace acts batch-itemwise. -/
lemma backtraceAux_resB {L B C : ℕ} (g : Fin C → Fin B) :
    ∀ (ms : List (Fin B → Fin (L + 1) → Fin (L + 1)))
      (inds : Fin B → Fin (L + 1)),
      backtraceAux (ms.map (resB g)) (resB g inds) =
        (backtraceAux ms inds).map (resB g) := by
  intro ms
  induction ms with
  | nil => intro inds; rfl
  | cons m t ih =>
    intro inds
    simp only [List.map_cons, backtraceAux, List.map_cons]
    exact congrArg _ (ih (fun b => m b (inds b)))

/-- `crf1d_viterbi` acts batch-itemwise: running the decoder on a
restricted batch returns the restricted alpha and the itemwise-restricted
path. -/
lemma crf1d_viterbi_resB {L B C : ℕ} (g : Fin C → Fin B)
    (cost : Fin (L + 1) → Fin (L + 1) → α) (x0 : Fin B → Fin (L + 1) → α)
    (rest : List (Fin B → Fin (L + 1) → α)) :
    crf1d_viterbi cost (resB g x0 :: rest.map (resB g)) =
      (crf1d_viterbi cost (x0 :: rest)).map
        (fun r => (resB g r.1, r.2.map (resB g))) := by
  have hrun : vrun cost (resB g x0) (rest.map (resB g)) =
      resState g (vrun cost x0 rest) := by
    unfold vrun
    rw [show vinit cost (resB g x0) = resState g (vinit cost x0) from rfl]
    exact foldl_vstep_resState g rest (vinit cost x0)
  simp only [crf1d_viterbi, Option.map_some, hrun]
  congr 1
  refine congrArg₂ Prod.mk rfl ?_
  rw [show (resState g (vrun cost x0 rest)).maxInds =
      (vrun cost x0 rest).maxInds.map (resB g) from rfl,
    ← List.map_reverse,
    show (fun c => argmaxVec ((resState g (vrun cost x0 rest)).alpha c)) =
      resB g (fun b => argmaxVec ((vrun cost x0 rest).alpha b)) from rfl,
    backtraceAux_resB, List.map_reverse]

end Batch

namespace Batch

open Crf1d Viterbi

variable {α : Type} [LinearOrder α] [Add α]

/-- The injection selecting the first item of a two-item batch. -/
def emb0 : Fin 1 → Fin 2 := fun _ => 0

/-- The injection selecting the second item of a two-item batch. -/
def emb1 : Fin 1 → Fin 2 := fun _ => 1

/-- Extracting item 0 of a stacked pair recovers the first item. -/
lemma resB_stack2_zero {γ : Type} (f g : Fin 1 → γ) :
    resB emb0 (stack2 f g) = f := by
  funext u
  rw [Subsingleton.elim u 0]
  rfl

/-- Extracting item 1 of a stacked pair recovers the second item. -/
lemma resB_stack2_one {γ : Type} (f g : Fin 1 → γ) :
    resB emb1 (stack2 f g) = g := by
  funext u
  rw [Subsingleton.elim u 0]
  rfl

/-- Extracting item 0 of an itemwise-stacked list of equal-length lists
recovers the first list. -/
lemma map_resB_stack2_zero {γ : Type} :
    ∀ (l1 l2 : List (Fin 1 → γ)), l1.length = l2.length →
      (List.zipWith stack2 l1 l2).map (resB emb0) = l1 := by
  intro l1
  induction l1 with
  | nil => intro l2 h; rfl
  | cons a t ih =>
    intro l2 h
    cases l2 with
    | nil => simp at h
    | cons c t2 =>
      simp only [List.zipWith_cons_cons, List.map_cons]
      rw [resB_stack2_zero, ih t2 (by simpa using h)]

/-- Extracting item 1 of an itemwise-stacked list of equal-length lists
recovers the second list. -/
lemma map_resB_stack2_one {γ : Type} :
    ∀ (l1 l2 : List (Fin 1 → γ)), l1.length = l2.length →
      (List.zipWith stack2 l1 l2).map (resB emb1) = l2 := by
  intro l1
  induction l1 with
  | nil =>
    intro l2 h
    cases l2 with
    | nil => rfl
    | cons c t2 => simp at h
  | cons a t ih =>
    intro l2 h
    cases l2 with
    | nil => simp at h
    | cons c t2 =>
      simp only [List.zipWith_cons_cons, List.map_cons]
      rw [resB_stack2_one, ih t2 (by simpa using h)]

end Batch

namespace Batch

open Crf1d Viterbi

variable {α : Type} [LinearOrder α] [Add α]

/-- C6: batch independence.  Running the scorer (and the decoder) on the
batch-size-2 input obtained by stacking two single-item inputs yields, at
each batch index, exactly the per-item loss (respectively alpha row and
decoded path) of running that item alone with batch size 1. -/
theorem batch_independence {L : ℕ} (cost : Fin (L + 1) → Fin (L + 1) → ℝ)
    (vcost : Fin (L + 1) → Fin (L + 1) → α)
    (x0a x0b : Fin 1 → Fin (L + 1) → ℝ)
    (ra rb : List (Fin 1 → Fin (L + 1) → ℝ))
    (ysa ysb : List (Fin 1 → Fin (L + 1)))
    (v0a v0b : Fin 1 → Fin (L + 1) → α)
    (wa wb : List (Fin 1 → Fin (L + 1) → α))
    (hr : ra.length = rb.length) (hy : ysa.length = ysb.length)
    (hw : wa.length = wb.length) :
    (((crf1d cost (stack2 x0a x0b :: List.zipWith stack2 ra rb)
          (List.zipWith stack2 ysa ysb)).map fun f => f 0) =
        (crf1d cost (x0a :: ra) ysa).map fun f => f 0) ∧
      (((crf1d cost (stack2 x0a x0b :: List.zipWith stack2 ra rb)
          (List.zipWith stack2 ysa ysb)).map fun f => f 1) =
        (crf1d cost (x0b :: rb) ysb).map fun f => f 0) ∧
      (((crf1d_viterbi vcost (stack2 v0a v0b :: List.zipWith stack2 wa wb)).map
          fun r => (r.1 0, r.2.map fun v => v 0)) =
        (crf1d_viterbi vcost (v0a :: wa)).map
          fun r => (r.1 0, r.2.map fun v => v 0)) ∧
      ((crf1d_viterbi vcost (stack2 v0a v0b :: List.zipWith stack2 wa wb)).map
          fun r => (r.1 1, r.2.map fun v => v 1)) =
        (crf1d_viterbi vcost (v0b :: wb)).map
          fun r => (r.1 0, r.2.map fun v => v 0) := by
  refine ⟨?_, ?_, ?_, ?_⟩
  · conv_rhs => rw [← resB_stack2_zero x0a x0b, ← map_resB_stack2_zero ra rb hr,
      ← map_resB_stack2_zero ysa ysb hy]
    rw [crf1d_resB, Option.map_map]
    rfl
  · conv_rhs => rw [← resB_stack2_one x0a x0b, ← map_resB_stack2_one ra rb hr,
      ← map_resB_stack2_one ysa ysb hy]
    rw [crf1d_resB, Option.map_map]
    rfl
  · conv_rhs => rw [← resB_stack2_zero v0a v0b, ← map_resB_stack2_zero wa wb hw]
    rw [crf1d_viterbi_resB, Option.map_map]
    refine congrArg₂ Option.map ?_ rfl
    funext r
    simp only [Function.comp_apply, List.map_map]
    rfl
  · conv_rhs => rw [← resB_stack2_one v0a v0b, ← map_resB_stack2_one wa wb hw]
    rw [crf1d_viterbi_resB, Option.map_map]
    refine congrArg₂ Option.map ?_ rfl
    funext r
    simp only [Function.comp_apply, List.map_map]
    rfl

/-- All-zero 1×1 real transition matrix for exercising the scorer. -/
noncomputable def oneCostR : Fin 1 → Fin 1 → ℝ := fun _ _ => 0

/-- All-zero real emission tensor for exercising the scorer. -/
noncomputable def oneXR : Fin 1 → Fin 1 → ℝ := fun _ _ => 0

/-- Witness for `batch_independence` at a concrete input. -/
theorem batch_independence_witness :
    (([] : List (Fin 1 → Fin 1 → ℝ)).length =
        ([] : List (Fin 1 → Fin 1 → ℝ)).length) ∧
      (([] : List (Fin 1 → Fin 1)).length = ([] : List (Fin 1 → Fin 1)).length) ∧
      (([] : List (Fin 1 → Fin 1 → ℤ)).length =
        ([] : List (Fin 1 → Fin 1 → ℤ)).length) ∧
      ((((crf1d oneCostR [stack2 oneXR oneXR] []).map fun f => f 0) =
          (crf1d oneCostR [oneXR] []).map fun f => f 0) ∧
        (((crf1d oneCostR [stack2 oneXR oneXR] []).map fun f => f 1) =
          (crf1d oneCostR [oneXR] []).map fun f => f 0) ∧
        (((crf1d_viterbi oneCost [stack2 oneX oneX]).map
            fun r => (r.1 0, r.2.map fun v => v 0)) =
          (crf1d_viterbi oneCost [oneX]).map
            fun r => (r.1 0, r.2.map fun v => v 0)) ∧
        ((crf1d_viterbi oneCost [stack2 oneX oneX]).map
            fun r => (r.1 1, r.2.map fun v => v 1)) =
          (crf1d_viterbi oneCost [oneX]).map
            fun r => (r.1 0, r.2.map fun v => v 0)) :=
  ⟨rfl, rfl, rfl,
    batch_independence oneCostR oneCost oneXR oneXR [] [] [] [] oneX oneX [] []
      rfl rfl rfl⟩

end Batch

namespace Trainer

/-- A raw numeric array; `size` is the number of elements. -/
structure NdArray where
  data : List ℚ

/-- `x.size` of an array. -/
def NdArray.size (a : NdArray) : ℕ := a.data.length

/-- `chainer.variable.Variable`: a differentiable-graph input node
wrapping a raw array (modelled by its `data` attribute, the only one the
updater reads). -/
structure Variable where
  data : NdArray

/-- A value held by a named attribute of the target model's `__dict__`:
either a `Variable` or anything else (opaque). -/
inductive AttrVal where
  | var (v : Variable)
  | plain (tag : ℕ)

/-- The optimizer's target model: its `__dict__` of named attributes. -/
structure Target where
  dict : List (String × AttrVal)

/-- A python callable as seen by `optimizer.update`: either the target
model itself (callable-model-as-loss convention) or a separately supplied
loss function. -/
inductive Callable where
  | model (t : Target)
  | fn (tag : ℕ)

/-- The optimizer, exposing its mutable `target`. -/
structure Optimizer where
  target : Target

/-- The updater's `inputs` argument: either already a tuple of arrays or a
single non-tuple value. -/
inductive Inputs where
  | tup (xs : List NdArray)
  | single (x : NdArray)

/-- `if not isinstance(inputs, tuple): inputs = inputs,` — coercion of
`inputs` to a tuple. -/
def Inputs.coerced : Inputs → List NdArray
  | .tup xs => xs
  | .single x => [x]

/-- One invocation `optimizer.update(lossfun, *args)`. -/
structure UpdateCall where
  lossfun : Callable
  args : List Variable

/-- `StandardUpdater`: holds the optional loss function given at
construction (`self._lossfun`). -/
structure StandardUpdater where
  lossfun : Option Callable

/-- `StandardUpdater.__call__(inputs, optimizer)`: wraps the coerced
inputs into `Variable`s, resolves the loss function (the explicitly
supplied one, else `optimizer.target`), performs the single
`optimizer.update` invocation (returned as the list of invocations made),
and builds the result mapping from the size-1 `Variable` attributes of
`optimizer.target.__dict__`. -/
def StandardUpdater.call (u : StandardUpdater) (inputs : Inputs)
    (opt : Optimizer) : List UpdateCall × List (String × NdArray) :=
  let inVars := inputs.coerced.map Variable.mk
  let lossfun := match u.lossfun with
    | none => Callable.model opt.target
    | some f => f
  ([⟨lossfun, inVars⟩],
    opt.target.dict.filterMap fun nv =>
      match nv.2 with
      | .var v => if v.data.size = 1 then some (nv.1, v.data) else none
      | .plain _ => none)

/-- Failure signalled by the base class. -/
inductive PyError where
  | notImplemented

/-- The base `Updater` class: no state of its own. -/
structure Updater

/-- `Updater.__call__` raises `NotImplementedError`. -/
def Updater.call (_ : Updater) (_ : Inputs) (_ : Optimizer) :
    Except PyError (List (String × NdArray)) :=
  .error .notImplemented

/-- `Updater.serialize(serializer)` is `pass`: it succeeds and leaves the
serializer untouched. -/
def Updater.serialize {σ : Type} (_ : Updater) (s : σ) : Except PyError σ :=
  .ok s

/-- C7: `StandardUpdater.__call__` coerces a non-tuple input to a
one-element tuple, wraps every element into a `Variable`, resolves the
loss function to the explicitly supplied one (else `optimizer.target`
itself), and invokes `optimizer.update(lossfun, *wrapped_inputs)` exactly
once. -/
theorem standardUpdater_call_spec (u : StandardUpdater) (inputs : Inputs)
    (opt : Optimizer) :
    (∀ x : NdArray, (Inputs.single x).coerced = [x]) ∧
      (∀ xs : List NdArray, (Inputs.tup xs).coerced = xs) ∧
      (u.call inputs opt).1 =
        [⟨u.lossfun.getD (Callable.model opt.target),
          inputs.coerced.map Variable.mk⟩] := by
  refine ⟨fun x => rfl, fun xs => rfl, ?_⟩
  obtain ⟨lf⟩ := u
  cases lf <;> rfl

/-- C8: the result mapping of `StandardUpdater.__call__` has an entry
`(name, value)` exactly when `optimizer.target.__dict__` holds, directly
under `name`, a `Variable` whose data array has exactly one element and
whose data is `value`; no other attribute contributes an entry. -/
theorem standardUpdater_result_spec (u : StandardUpdater) (inputs : Inputs)
    (opt : Optimizer) (name : String) (arr : NdArray) :
    (name, arr) ∈ (u.call inputs opt).2 ↔
      ∃ v : Variable, (name, AttrVal.var v) ∈ opt.target.dict ∧
        v.data.size = 1 ∧ arr = v.data := by
  simp only [StandardUpdater.call, List.mem_filterMap]
  constructor
  · rintro ⟨⟨n, a⟩, hmem, hf⟩
    cases a with
    | var v =>
      dsimp only at hf
      split_ifs at hf with hs
      · simp only [Option.some.injEq, Prod.mk.injEq] at hf
        obtain ⟨rfl, rfl⟩ := hf
        exact ⟨v, hmem, hs, rfl⟩
    | plain t => simp at hf
  · rintro ⟨v, hmem, hs, rfl⟩
    exact ⟨(name, AttrVal.var v), hmem, by simp [hs]⟩

/-- C9: the base `Updater`'s call operation always fails with
"not implemented" (returning no result and touching no state), and its
`serialize` is a no-op that succeeds for every serializer. -/
theorem updater_base_spec (u : Updater) :
    (∀ (inputs : Inputs) (opt : Optimizer),
        u.call inputs opt = Except.error PyError.notImplemented) ∧
      ∀ (σ : Type) (s : σ), u.serialize s = Except.ok s :=
  ⟨fun _ _ => rfl, fun _ _ => rfl⟩

end Trainer
